import Mathlib

/-!
Verification of the geometry/tessellation core of the io2d 2-D vector-path
engine (src/io2d.h): ear-clipping polygon triangulation, thick-line quad
expansion, ellipse sampling, circular arc-corner fitting, and the path
accumulator's command semantics.

Modelling conventions:
* C++ `float`/`double` arithmetic is modelled as exact arithmetic in a
  linear ordered field `α` (the division-free triangulator is stated over
  a linear ordered commutative ring so that concrete instances can be
  evaluated over `ℤ`);
* the transcendental C library functions (`sqrt`, `cos`, `sin`, `tan`,
  `acos`, `atan2`, `hypot`) and the constant `M_PI` are abstracted into a
  record `TrigOps` of functions over `α`; theorems assume exactly the
  algebraic facts about those functions that the claim at hand needs;
* C++ `while` loops are modelled by structural recursion with an explicit
  iteration bound (`fuel`); wherever the source loop terminates, a
  sufficiency hypothesis (or a provably sufficient bound) makes the
  modelled loop take the same iterations as the source loop;
* `std::vector` indexing is modelled by `List.getD` with a default value;
  every use in the source indexes in bounds;
* drawing calls into the sokol_gp surface (`sgp_*`) are modelled as a
  trace of `RenderCmd` values, and the surface's color register as a
  `RenderState` updated by replaying the trace.
-/

namespace Io2d

/-- The sgp_point structure: a plain 2-D point with two coordinates. -/
structure Point (α : Type) where
  x : α
  y : α
deriving DecidableEq, Repr

/-- The sgp_triangle structure: three points. -/
structure Triangle (α : Type) where
  a : Point α
  b : Point α
  c : Point α
deriving DecidableEq, Repr

/-- The rgba_color class: four color channels. -/
structure Color (α : Type) where
  r : α
  g : α
  b : α
  a : α
deriving DecidableEq, Repr

/-- The fill_style_s class: a fill color. -/
structure FillStyle (α : Type) where
  color : Color α
deriving DecidableEq, Repr

/-- Abstraction of the C math library functions used by io2d.h, together
with the constant `M_PI`.  Each theorem states the algebraic properties of
these functions it relies on as hypotheses. -/
structure TrigOps (α : Type) where
  pi : α
  sqrtFn : α → α
  cos : α → α
  sin : α → α
  tan : α → α
  acos : α → α
  atan2 : α → α → α
  hypot : α → α → α

/-- The path element variants of io2d (the abstract_sub_path subclasses):
line, rectangle, ellipse, rounded rectangle, and free-form sub-path. -/
inductive PathElement (α : Type) where
  | line : Point α → Point α → PathElement α
  | rect : Point α → Point α → PathElement α
  | ellipse : Point α → Point α → α → α → PathElement α
  | roundrect : Point α → Point α → α → α → PathElement α
  | sub : List (Point α) → PathElement α
deriving DecidableEq

/-- The drawing-surface calls (sgp_*) the engine issues, recorded as a
trace. -/
inductive RenderCmd (α : Type) where
  | set_color : Color α → RenderCmd α
  | draw_line : Point α → Point α → RenderCmd α
  | draw_lines_strip : List (Point α) → RenderCmd α
  | draw_filled_rect : α → α → α → α → RenderCmd α
  | draw_filled_triangles : List (Triangle α) → RenderCmd α
  | draw_filled_triangles_strip : List (Point α) → RenderCmd α
deriving DecidableEq

/-- The observable surface state: the current draw color register and the
geometry submitted so far. -/
structure RenderState (α : Type) where
  color : Color α
  geometry : List (RenderCmd α)
deriving DecidableEq

section InstanceFreeDefs

variable {α : Type}

/-- Effect of one surface call on the surface state: `set_color` updates
the color register, every other call submits geometry. -/
def apply_cmd (st : RenderState α) : RenderCmd α → RenderState α
  | RenderCmd.set_color c => { st with color := c }
  | cmd => { st with geometry := st.geometry ++ [cmd] }

/-- Replay a trace of surface calls on a surface state. -/
def apply_cmds (st : RenderState α) (cmds : List (RenderCmd α)) :
    RenderState α :=
  cmds.foldl apply_cmd st

/-- Bounds-checked access `polygon[i]` (every source access is in bounds).
The default value only matters for out-of-range access, which the source
never performs. -/
def pget [Zero α] (polygon : List (Point α)) (i : Nat) : Point α :=
  polygon.getD i ⟨0, 0⟩

/-- sub_path::move_to : unconditionally append the point. -/
def sub_path_move_to (pts : List (Point α)) (pt : Point α) : List (Point α) :=
  pts ++ [pt]

/-- sub_path::line_to : append the point unless the sub-path is empty. -/
def sub_path_line_to (pts : List (Point α)) (pt : Point α) : List (Point α) :=
  if pts.isEmpty then pts else pts ++ [pt]

/-- canvas::begin_path : clear the path's element list. -/
def canvas_begin_path (_els : List (PathElement α)) : List (PathElement α) :=
  []

/-- path::current_sub_path : the points of the last element if it is a
free-form sub-path (the dynamic_cast), else none. -/
def path_current_sub_path (els : List (PathElement α)) :
    Option (List (Point α)) :=
  match els.getLast? with
  | some (PathElement.sub pts) => some pts
  | _ => none

end InstanceFreeDefs

section RingDefs

variable {α : Type} [LinearOrderedCommRing α]

/-- sub_path::cross : the 2-D cross product of `b - a` and `c - a`.
(The source also has an identical copy named `cross_product`.) -/
def cross (a b c : Point α) : α :=
  (b.x - a.x) * (c.y - a.y) - (b.y - a.y) * (c.x - a.x)

/-- sub_path::is_convex : the triangulator's fixed-sign convexity test. -/
def is_convex (prev curr next : Point α) : Bool :=
  decide (cross prev curr next < 0)

/-- sub_path::point_in_triangle : `p` is inside or on `t` iff the three
edge cross products do not have both a negative and a positive one. -/
def point_in_triangle (p : Point α) (t : Triangle α) : Bool :=
  let d1 := cross t.a t.b p
  let d2 := cross t.b t.c p
  let d3 := cross t.c t.a p
  let has_neg := decide (d1 < 0) || decide (d2 < 0) || decide (d3 < 0)
  let has_pos := decide (0 < d1) || decide (0 < d2) || decide (0 < d3)
  !(has_neg && has_pos)

/-- One candidate-ear test of sub_path::triangulate_polygon's inner scan at
scan position `i` of the working index list: the triple must be convex and
no other remaining vertex may lie inside or on the candidate triangle. -/
def ear_ok (polygon : List (Point α)) (indices : List Nat) (i : Nat) : Bool :=
  let n := indices.length
  let prev := indices.getD ((i + n - 1) % n) 0
  let curr := indices.getD i 0
  let next := indices.getD ((i + 1) % n) 0
  let a := pget polygon prev
  let b := pget polygon curr
  let c := pget polygon next
  is_convex a b c &&
    !(indices.any (fun j =>
      !(j == prev || j == curr || j == next) &&
        point_in_triangle (pget polygon j) ⟨a, b, c⟩))

/-- The inner `for` scan of sub_path::triangulate_polygon: the position of
the first valid ear in the working index list, if any. -/
def find_ear (polygon : List (Point α)) (indices : List Nat) : Option Nat :=
  (List.range indices.length).find? (fun i => ear_ok polygon indices i)

/-- The triangle clipped at scan position `i` of the working index list. -/
def ear_triangle (polygon : List (Point α)) (indices : List Nat) (i : Nat) :
    Triangle α :=
  let n := indices.length
  let prev := indices.getD ((i + n - 1) % n) 0
  let curr := indices.getD i 0
  let next := indices.getD ((i + 1) % n) 0
  ⟨pget polygon prev, pget polygon curr, pget polygon next⟩

/-- The code after the `while` loop of sub_path::triangulate_polygon: if
exactly 3 indices remain, the final triangle is emitted. -/
def final_triangle (polygon : List (Point α)) (indices : List Nat) :
    List (Triangle α) :=
  if indices.length == 3 then
    [⟨pget polygon (indices.getD 0 0), pget polygon (indices.getD 1 0),
      pget polygon (indices.getD 2 0)⟩]
  else []

/-- The `while (indices.size() > 3)` loop of sub_path::triangulate_polygon.
`acc` is the `triangles` vector accumulated so far; on a scan with no valid
ear the whole result is the empty list, discarding `acc`.  `fuel` bounds
the number of iterations; each iteration removes one index, so the bound
passed by `triangulate_polygon` (the vertex count) always suffices. -/
def clip_loop (polygon : List (Point α)) :
    Nat → List Nat → List (Triangle α) → List (Triangle α)
  | 0, indices, acc => acc ++ final_triangle polygon indices
  | fuel + 1, indices, acc =>
    if 3 < indices.length then
      match find_ear polygon indices with
      | none => []
      | some i =>
          clip_loop polygon fuel (indices.eraseIdx i)
            (acc ++ [ear_triangle polygon indices i])
    else acc ++ final_triangle polygon indices

/-- sub_path::triangulate_polygon : ear-clipping triangulation.  Polygons
with fewer than 3 vertices yield the empty triangle list at once. -/
def triangulate_polygon (polygon : List (Point α)) : List (Triangle α) :=
  if polygon.length < 3 then []
  else clip_loop polygon polygon.length (List.range polygon.length) []

/-- Squared Euclidean distance between two points (used to state distance
facts without a square root). -/
def dist_sq (p q : Point α) : α :=
  (q.x - p.x) * (q.x - p.x) + (q.y - p.y) * (q.y - p.y)

/-- Modelled from the spec: the Shoelace formula.  Twice the signed area
of the polygon, `∑ (x_i·y_{i+1} − x_{i+1}·y_i)` over cyclically
consecutive vertex pairs.  (The source has no such function; the spec
names it as the analytic reference for triangulated areas.) -/
def shoelace2 (p : List (Point α)) : α :=
  ((List.range p.length).map (fun i =>
    (pget p i).x * (pget p ((i + 1) % p.length)).y -
      (pget p ((i + 1) % p.length)).x * (pget p i).y)).sum

/-- The expected triangle fan produced by ear clipping on a strictly
convex clockwise polygon: starting from the working window `[k, k+m)` of
vertex indices, each step clips the triangle (last, first, second) and
drops the first index; the final window of three indices is emitted in
index order.  Used to characterize `triangulate_polygon` on convex input. -/
def fanFrom (p : List (Point α)) : Nat → Nat → List (Triangle α)
  | _, 0 => []
  | _, 1 => []
  | _, 2 => []
  | k, 3 => [⟨pget p k, pget p (k + 1), pget p (k + 2)⟩]
  | k, m + 4 =>
    ⟨pget p (k + m + 3), pget p k, pget p (k + 1)⟩ :: fanFrom p (k + 1) (m + 3)

end RingDefs

section FieldDefs

variable {α : Type} [LinearOrderedField α]

/-- path_line::get_thick_line_points : expand the segment `start`-`finish`
into the 4 corners of a thickness-`thickness` quad. -/
def get_thick_line_points (ops : TrigOps α) (start finish : Point α)
    (thickness : α) : List (Point α) :=
  let d := ops.sqrtFn ((finish.x - start.x) * (finish.x - start.x) +
    (finish.y - start.y) * (finish.y - start.y))
  let y_shift := thickness * (finish.x - start.x) / (d * 2)
  let x_shift := -thickness * (finish.y - start.y) / (d * 2)
  [⟨start.x - x_shift, start.y - y_shift⟩,
   ⟨start.x + x_shift, start.y + y_shift⟩,
   ⟨finish.x + x_shift, finish.y + y_shift⟩,
   ⟨finish.x - x_shift, finish.y - y_shift⟩]

/-- path_ellipse::ellipse_data : center and radii of an ellipse. -/
structure EllipseData (α : Type) where
  cx : α
  cy : α
  rx : α
  ry : α
deriving DecidableEq, Repr

/-- path_ellipse::get_ellipse_data : derive center and radii from the
bounding-box corner points. -/
def get_ellipse_data (start finish : Point α) : EllipseData α :=
  let rx := (finish.x - start.x) / 2
  let ry := (finish.y - start.y) / 2
  ⟨start.x + rx, start.y + ry, rx, ry⟩

/-- The `while (alpha <= alpha_end)` loop of
path_ellipse::get_ellipse_points: emit a sample point and advance `alpha`
by `step` while `alpha ≤ alphaEnd`.  The result also carries the value of
`alpha` after the loop, which the source inspects afterwards.  `fuel`
bounds the iterations; theorems assume it suffices, matching the
terminating source loop. -/
def ellipse_loop (ops : TrigOps α) (ed : EllipseData α) (alphaEnd step : α) :
    Nat → α → List (Point α) × α
  | 0, alpha => ([], alpha)
  | fuel + 1, alpha =>
    if alpha ≤ alphaEnd then
      let r := ellipse_loop ops ed alphaEnd step fuel (alpha + step)
      (⟨ed.cx + ops.cos alpha * ed.rx, ed.cy + ops.sin alpha * ed.ry⟩ :: r.1,
        r.2)
    else ([], alpha)

/-- The angular step `(2π) / perimeter` of path_ellipse::get_ellipse_points
with `perimeter = 2π·sqrt((rx²+ry²)/2)`. -/
def ellipse_step (ops : TrigOps α) (start finish : Point α) : α :=
  let ed := get_ellipse_data start finish
  let perimeter := 2 * ops.pi * ops.sqrtFn ((ed.rx * ed.rx + ed.ry * ed.ry) / 2)
  (2 * ops.pi) / perimeter

/-- path_ellipse::get_ellipse_points : sample the elliptical arc from
`alphaStart` to `alphaEnd`; after the sampling loop, if the gap from the
final `alpha` to `alphaEnd` is smaller than the step, one further point at
exactly `alphaEnd` is appended. -/
def get_ellipse_points (ops : TrigOps α) (fuel : Nat) (start finish : Point α)
    (alphaStart alphaEnd : α) : List (Point α) :=
  let ed := get_ellipse_data start finish
  let step := ellipse_step ops start finish
  let r := ellipse_loop ops ed alphaEnd step fuel alphaStart
  if alphaEnd - r.2 < step then
    r.1 ++ [⟨ed.cx + ops.cos alphaEnd * ed.rx, ed.cy + ops.sin alphaEnd * ed.ry⟩]
  else r.1

/-- path_ellipse::get_ellipse_triangles : fan triangles from the center
through consecutive sample points. -/
def get_ellipse_triangles (ops : TrigOps α) (fuel : Nat)
    (start finish : Point α) (alphaStart alphaEnd : α) : List (Triangle α) :=
  let points := get_ellipse_points ops fuel start finish alphaStart alphaEnd
  let ed := get_ellipse_data start finish
  let center : Point α := ⟨ed.cx, ed.cy⟩
  List.zipWith (fun p q => (⟨center, p, q⟩ : Triangle α)) points points.tail

/-- C++ `static_cast<int>` on a floating value: truncation toward zero. -/
def truncInt [FloorRing α] (x : α) : ℤ :=
  if 0 ≤ x then ⌊x⌋ else ⌈x⌉

/-- The intermediate quantities of sub_path::get_arc_to_points: the arc
center, the start angle, and the (direction-adjusted) swept angle. -/
structure ArcData (α : Type) where
  center : Point α
  startAngle : α
  deltaAngle : α

/-- The computation of sub_path::get_arc_to_points up to the arc center,
start angle and swept angle: normalize the two corner direction vectors,
find the tangent points and the circle center on the bisector, read the
two tangent angles off `atan2`, and adjust their difference by ±2π
according to the turn direction. -/
def arc_data (ops : TrigOps α) (p0 p1 p2 : Point α) (radius : α) : ArcData α :=
  let dx1 := p0.x - p1.x
  let dy1 := p0.y - p1.y
  let dx2 := p2.x - p1.x
  let dy2 := p2.y - p1.y
  let len1 := ops.hypot dx1 dy1
  let len2 := ops.hypot dx2 dy2
  let ux1 := dx1 / len1
  let uy1 := dy1 / len1
  let ux2 := dx2 / len2
  let uy2 := dy2 / len2
  let angle := ops.acos (ux1 * ux2 + uy1 * uy2)
  let tanHalfAngle := ops.tan (angle / 2)
  let dist := radius / tanHalfAngle
  let tangent1 : Point α := ⟨p1.x + ux1 * dist, p1.y + uy1 * dist⟩
  let tangent2 : Point α := ⟨p1.x + ux2 * dist, p1.y + uy2 * dist⟩
  let bisectX := ux1 + ux2
  let bisectY := uy1 + uy2
  let bisectLen := ops.hypot bisectX bisectY
  let bx := bisectX / bisectLen
  let by2 := bisectY / bisectLen
  let center : Point α := ⟨p1.x + bx * radius / ops.sin (angle / 2),
    p1.y + by2 * radius / ops.sin (angle / 2)⟩
  let startAngle := ops.atan2 (tangent1.y - center.y) (tangent1.x - center.x)
  let endAngle := ops.atan2 (tangent2.y - center.y) (tangent2.x - center.x)
  let clockwise := decide (ux1 * uy2 - uy1 * ux2 < 0)
  let d0 := endAngle - startAngle
  let deltaAngle :=
    if clockwise && decide (d0 < 0) then d0 + 2 * ops.pi
    else if !clockwise && decide (0 < d0) then d0 - 2 * ops.pi
    else d0
  ⟨center, startAngle, deltaAngle⟩

/-- The adaptive segment count of sub_path::get_arc_to_points:
`max(4, (int)(arcLength / 2))` with `arcLength = |Δangle|·radius`. -/
def arc_segments [FloorRing α] (ops : TrigOps α) (p0 p1 p2 : Point α)
    (radius : α) : ℤ :=
  let arcLength := |(arc_data ops p0 p1 p2 radius).deltaAngle| * radius
  max 4 (truncInt (arcLength / 2))

/-- sub_path::get_arc_to_points : the point sequence of the rounding arc
replacing the corner `p0 → p1 → p2`, sampled at `segments + 1` evenly
spaced angles from the start angle through the swept angle. -/
def get_arc_to_points [FloorRing α] (ops : TrigOps α) (p0 p1 p2 : Point α)
    (radius : α) : List (Point α) :=
  let ad := arc_data ops p0 p1 p2 radius
  let segments := arc_segments ops p0 p1 p2 radius
  (List.range (segments.toNat + 1)).map (fun (i : Nat) =>
    let theta := ad.startAngle + ad.deltaAngle * (i : α) / ((segments : ℤ) : α)
    (⟨ad.center.x + radius * ops.cos theta,
      ad.center.y + radius * ops.sin theta⟩ : Point α))

/-- The virtual `fill` dispatch: the trace of surface calls each path
element variant issues for `fill(style)`.  path_line::fill has an empty
body; path_rect::fill sets the color and submits one filled rectangle;
path_ellipse::fill sets the color and submits the fan triangles;
path_roundrect::fill sets the color and submits two rectangles and four
corner fans; sub_path::fill sets the color and submits the ear-clipping
triangulation of its accumulated points. -/
def fill_element [FloorRing α] (ops : TrigOps α) (fuel : Nat)
    (style : FillStyle α) : PathElement α → List (RenderCmd α)
  | PathElement.line _ _ => []
  | PathElement.rect p1 p2 =>
    [RenderCmd.set_color style.color,
     RenderCmd.draw_filled_rect p1.x p1.y (p2.x - p1.x) (p2.y - p1.y)]
  | PathElement.ellipse p1 p2 a0 a1 =>
    [RenderCmd.set_color style.color,
     RenderCmd.draw_filled_triangles (get_ellipse_triangles ops fuel p1 p2 a0 a1)]
  | PathElement.roundrect p1 p2 rx ry =>
    let arc_top_left := get_ellipse_triangles ops fuel ⟨p1.x, p1.y⟩
      ⟨p1.x + rx * 2, p1.y + ry * 2⟩ ops.pi (ops.pi / 2 * 3)
    let arc_top_right := get_ellipse_triangles ops fuel ⟨p2.x - rx * 2, p1.y⟩
      ⟨p2.x, p1.y + ry * 2⟩ (ops.pi / 2 * 3) (ops.pi * 2)
    let arc_bottom_right := get_ellipse_triangles ops fuel
      ⟨p2.x - rx * 2, p2.y - ry * 2⟩ ⟨p2.x, p2.y⟩ 0 (ops.pi / 2)
    let arc_bottom_left := get_ellipse_triangles ops fuel ⟨p1.x, p2.y - ry * 2⟩
      ⟨p1.x + rx * 2, p2.y⟩ (ops.pi / 2) ops.pi
    [RenderCmd.set_color style.color,
     RenderCmd.draw_filled_rect (p1.x + rx) p1.y (p2.x - p1.x - rx * 2)
       (p2.y - p1.y),
     RenderCmd.draw_filled_rect p1.x (p1.y + ry) (p2.x - p1.x)
       (p2.y - p1.y - ry * 2),
     RenderCmd.draw_filled_triangles arc_top_left,
     RenderCmd.draw_filled_triangles arc_top_right,
     RenderCmd.draw_filled_triangles arc_bottom_right,
     RenderCmd.draw_filled_triangles arc_bottom_left]
  | PathElement.sub pts =>
    [RenderCmd.set_color style.color,
     RenderCmd.draw_filled_triangles (triangulate_polygon pts)]

/-- sub_path::arc_to : if the sub-path is non-empty, append the rounding
arc computed from the current back point through `pt1` toward `pt2`. -/
def sub_path_arc_to [FloorRing α] (ops : TrigOps α) (pts : List (Point α))
    (pt1 pt2 : Point α) (radius : α) : List (Point α) :=
  match pts.getLast? with
  | none => pts
  | some back => pts ++ get_arc_to_points ops back pt1 pt2 radius

/-- canvas::arc_to : fetch the current sub-path via
canvas::get_current_sub_path — lazily creating one seeded by
`move_to(pt1)` when the last element is not a sub-path — then forward to
sub_path::arc_to. -/
def canvas_arc_to [FloorRing α] (ops : TrigOps α) (els : List (PathElement α))
    (pt1 pt2 : Point α) (radius : α) : List (PathElement α) :=
  match els.getLast? with
  | some (PathElement.sub pts) =>
    els.dropLast ++ [PathElement.sub (sub_path_arc_to ops pts pt1 pt2 radius)]
  | _ =>
    els ++ [PathElement.sub
      (sub_path_arc_to ops (sub_path_move_to [] pt1) pt1 pt2 radius)]

/-- Modelled from the spec: the (absolute) area of a triangle, half the
absolute cross product of its edge vectors. -/
def triangle_area (t : Triangle α) : α :=
  |cross t.a t.b t.c| / 2

/-- Modelled from the spec: the analytic polygon area given by the
Shoelace formula. -/
def polygon_area (p : List (Point α)) : α :=
  |shoelace2 p| / 2

/-- Modelled from the spec: the segment count the spec's sentence claims,
`max(4, round(arcLength/2))` with rounding to nearest rather than the
truncation the source performs. -/
def arc_segments_spec [FloorRing α] (ops : TrigOps α) (p0 p1 p2 : Point α)
    (radius : α) : ℤ :=
  let arcLength := |(arc_data ops p0 p1 p2 radius).deltaAngle| * radius
  max 4 (round (arcLength / 2))

/-- A concrete rational instantiation of the abstracted math functions
that is consistent, at every value the corner
`(0,10) → (0,0) → (10,0)` with radius 6 touches, with the identities of
the real functions there, with π played by 157/50 = 3.14 and √2 by
99/70: the direction lengths are 10, acos 0 = π/2, tan(π/4) = 1,
hypot 1 1 = 99/70 with sin(π/4) its reciprocal, and the two tangent
angles read off `atan2` are π and −π/2 — both inside atan2's range
(−π, π] — so the swept angle comes out as π/2 exactly as in the real
execution. -/
def roundOps : TrigOps ℚ :=
  ⟨157 / 50, fun _ => 0,
   fun x => if x = 157 / 50 then -1 else 0,
   fun x => if x = 157 / 200 then 70 / 99 else if x = 157 / 50 then 0
     else if x = 471 / 100 then -1 else 0,
   fun x => if x = 157 / 200 then 1 else 0,
   fun x => if x = 0 then 157 / 100 else 0,
   fun y x => if y = 0 ∧ x = -6 then 157 / 50
     else if y = -6 ∧ x = 0 then -(157 / 100) else 0,
   fun x y => if x = 0 ∧ y = 10 then 10 else if x = 10 ∧ y = 0 then 10
     else if x = 1 ∧ y = 1 then 99 / 70 else 0⟩

/-- A concrete rational instantiation of the abstracted math functions
whose square root is exact at 25 (the squared length of the segment from
(0,0) to (3,4)). -/
def sqrt25Ops : TrigOps ℚ :=
  ⟨0, fun x => if x = 25 then 5 else 0, fun _ => 0, fun _ => 0, fun _ => 0,
   fun _ => 0, fun _ _ => 0, fun _ _ => 0⟩

/-- A concrete rational instantiation of the abstracted math functions
that is consistent, at every value the corner
`(0,10) → (0,0) → (10,0)` with radius 5 touches, with the identities of
the real functions there (with π played by 3 and √2 by 7). -/
def cornerOps : TrigOps ℚ :=
  ⟨3, fun _ => 0,
   fun x => if x = 3 then -1 else 0,
   fun x => if x = 3 / 4 then 1 / 7 else if x = 3 then 0
     else if x = 9 / 2 then -1 else 0,
   fun x => if x = 3 / 4 then 1 else 0,
   fun x => if x = 0 then 3 / 2 else 0,
   fun y x => if y = 0 ∧ x = -5 then 3
     else if y = -5 ∧ x = 0 then -(3 / 2) else 0,
   fun x y => if x = 0 ∧ y = 10 then 10 else if x = 10 ∧ y = 0 then 10
     else if x = 1 ∧ y = 1 then 7 else 0⟩

/-- A concrete rational instantiation of the abstracted math functions
with constant cosine and sine (hence trivially 2π-periodic), unit square
root, and π played by 2, making the ellipse sampling step equal 1. -/
def circleOps : TrigOps ℚ :=
  ⟨2, fun _ => 1, fun _ => 0, fun _ => 0, fun _ => 0, fun _ => 0,
   fun _ _ => 0, fun _ _ => 0⟩

end FieldDefs

section RingLemmas

variable {α : Type} [LinearOrderedCommRing α]

/-- Indexing into `List.range` with a default. -/
theorem getD_range (n i : Nat) (h : i < n) : (List.range n).getD i 0 = i := by
  simp [List.getD, List.getElem?_range, h]

/-- Head of a map over an inhabited range. -/
theorem head?_map_range {β : Type} (f : Nat → β) (n : Nat) :
    ((List.range (n + 1)).map f).head? = some (f 0) := by
  rw [List.range_succ_eq_map]; simp

/-- Last element of a map over an inhabited range. -/
theorem getLast?_map_range {β : Type} (f : Nat → β) (n : Nat) :
    ((List.range (n + 1)).map f).getLast? = some (f n) := by
  rw [List.range_succ]; simp

/-- A loop step with more than three remaining indices and no valid ear
discards everything and yields the empty triangle list. -/
theorem clip_loop_no_ear (polygon : List (Point α)) (fuel : Nat)
    (indices : List Nat) (acc : List (Triangle α)) (h3 : 3 < indices.length)
    (hnone : find_ear polygon indices = none) :
    clip_loop polygon (fuel + 1) indices acc = [] := by
  simp [clip_loop, h3, hnone]

end RingLemmas

section ClaimTheoremsA

variable {α : Type} [LinearOrderedCommRing α]

/-- Claim C9: for every input point sequence with fewer than 3 points
(including the empty sequence), triangulate_polygon returns the empty
triangle set. -/
theorem triangulate_short_input_empty (p : List (Point α))
    (h : p.length < 3) : triangulate_polygon p = [] := by
  simp [triangulate_polygon, h]

/-- Witness for C9 at a concrete one-point input. -/
theorem triangulate_short_input_empty_witness :
    ([(⟨1, 2⟩ : Point ℤ)] : List (Point ℤ)).length < 3 ∧
      triangulate_polygon [(⟨1, 2⟩ : Point ℤ)] = [] :=
  ⟨by decide, triangulate_short_input_empty [⟨1, 2⟩] (by decide)⟩

/-- Claim C4: whenever a full scan of the remaining vertex triples finds
no valid ear (`find_ear = none`) while more than three indices remain, the
clipping loop returns the empty triangle set, discarding the accumulator
of already-clipped triangles — no partial result is returned. -/
theorem clip_loop_failure_discards_partial (polygon : List (Point α))
    (indices : List Nat) (acc : List (Triangle α)) (fuel : Nat)
    (h3 : 3 < indices.length) (hnone : find_ear polygon indices = none) :
    clip_loop polygon (fuel + 1) indices acc = [] :=
  clip_loop_no_ear polygon fuel indices acc h3 hnone

/-- Witness for C4: a counter-clockwise square has no valid ear, and the
loop discards a non-trivial accumulator. -/
theorem clip_loop_failure_discards_partial_witness :
    3 < ([0, 1, 2, 3] : List Nat).length ∧
      find_ear [(⟨0, 0⟩ : Point ℤ), ⟨2, 0⟩, ⟨2, 2⟩, ⟨0, 2⟩] [0, 1, 2, 3] =
        none ∧
      clip_loop [(⟨0, 0⟩ : Point ℤ), ⟨2, 0⟩, ⟨2, 2⟩, ⟨0, 2⟩] 4 [0, 1, 2, 3]
        [⟨⟨0, 0⟩, ⟨2, 0⟩, ⟨2, 2⟩⟩] = [] :=
  ⟨by decide, by decide,
    clip_loop_failure_discards_partial
      [(⟨0, 0⟩ : Point ℤ), ⟨2, 0⟩, ⟨2, 2⟩, ⟨0, 2⟩] [0, 1, 2, 3]
      [⟨⟨0, 0⟩, ⟨2, 0⟩, ⟨2, 2⟩⟩] 3 (by decide) (by decide)⟩

/-- Claim C1: on a polygon of at least 4 vertices wound opposite to the
engine's convexity convention — `cross(prev, curr, next) > 0` at every
vertex — the triangulator rejects every candidate ear on the very first
scan and returns the empty triangle set. -/
theorem triangulate_opposite_winding_empty (p : List (Point α))
    (h4 : 4 ≤ p.length)
    (hw : ∀ i, i < p.length →
      0 < cross (pget p ((i + p.length - 1) % p.length)) (pget p i)
        (pget p ((i + 1) % p.length))) :
    triangulate_polygon p = [] := by
  have hn0 : 0 < p.length := by omega
  have hnone : find_ear p (List.range p.length) = none := by
    rw [find_ear, List.find?_eq_none]
    intro i hi
    rw [List.length_range, List.mem_range] at *
    have hmod1 : (i + p.length - 1) % p.length < p.length := Nat.mod_lt _ hn0
    have hmod2 : (i + 1) % p.length < p.length := Nat.mod_lt _ hn0
    simp only [ear_ok, List.length_range, getD_range _ _ hi,
      getD_range _ _ hmod1, getD_range _ _ hmod2, is_convex, Bool.not_eq_true,
      Bool.and_eq_false_iff]
    left
    simpa using not_lt.2 (le_of_lt (hw i hi))
  obtain ⟨f, hf⟩ : ∃ f, p.length = f + 1 := ⟨p.length - 1, by omega⟩
  have h3 : ¬ p.length < 3 := by omega
  rw [triangulate_polygon, if_neg h3, hf]
  exact clip_loop_no_ear p f (List.range (f + 1)) []
    (by rw [List.length_range]; omega) (hf ▸ hnone)

/-- Witness for C1 at a counter-clockwise square. -/
theorem triangulate_opposite_winding_empty_witness :
    4 ≤ ([(⟨0, 0⟩ : Point ℤ), ⟨2, 0⟩, ⟨2, 2⟩, ⟨0, 2⟩] : List (Point ℤ)).length ∧
      (∀ i, i < ([(⟨0, 0⟩ : Point ℤ), ⟨2, 0⟩, ⟨2, 2⟩, ⟨0, 2⟩] :
          List (Point ℤ)).length →
        0 < cross
          (pget [(⟨0, 0⟩ : Point ℤ), ⟨2, 0⟩, ⟨2, 2⟩, ⟨0, 2⟩] ((i + 4 - 1) % 4))
          (pget [(⟨0, 0⟩ : Point ℤ), ⟨2, 0⟩, ⟨2, 2⟩, ⟨0, 2⟩] i)
          (pget [(⟨0, 0⟩ : Point ℤ), ⟨2, 0⟩, ⟨2, 2⟩, ⟨0, 2⟩] ((i + 1) % 4))) ∧
      triangulate_polygon [(⟨0, 0⟩ : Point ℤ), ⟨2, 0⟩, ⟨2, 2⟩, ⟨0, 2⟩] = [] :=
  ⟨by decide, by decide,
    triangulate_opposite_winding_empty
      [(⟨0, 0⟩ : Point ℤ), ⟨2, 0⟩, ⟨2, 2⟩, ⟨0, 2⟩] (by decide) (by decide)⟩

end ClaimTheoremsA

section ClaimTheoremsB

variable {α : Type} [LinearOrderedField α] [FloorRing α]

/-- Claim C10: for every fill style, `fill` on a Line path element issues
no surface calls at all — it submits no geometry and leaves the whole
surface state, including the current draw color, unchanged. -/
theorem line_fill_is_noop (ops : TrigOps α) (fuel : Nat)
    (style : FillStyle α) (p q : Point α) (st : RenderState α) :
    fill_element ops fuel style (PathElement.line p q) = [] ∧
      apply_cmds st (fill_element ops fuel style (PathElement.line p q)) = st :=
  ⟨rfl, rfl⟩

/-- An arc_to issued right after begin_path lazily opens a sub-path seeded
with the vertex `pt1` (via get_current_sub_path's `move_to(default_point)`)
and then appends the computed arc points to it. -/
theorem canvas_arc_to_after_begin (ops : TrigOps α)
    (els : List (PathElement α)) (pt1 pt2 : Point α) (radius : α) :
    path_current_sub_path
        (canvas_arc_to ops (canvas_begin_path els) pt1 pt2 radius) =
      some (pt1 :: get_arc_to_points ops pt1 pt1 pt2 radius) := by
  simp [canvas_begin_path, canvas_arc_to, sub_path_arc_to, sub_path_move_to,
    path_current_sub_path]

/-- Counterexample to claim C2 as stated: after begin_path, an arc_to with
vertex (1,2) leaves a current sub-path whose point sequence is not empty
(its first point is the lazily inserted vertex), evaluated at a concrete
instantiation of the trigonometric operations over ℚ. -/
theorem arc_to_after_begin_path_not_empty :
    (path_current_sub_path
        (canvas_arc_to
          (⟨0, fun _ => 0, fun _ => 0, fun _ => 0, fun _ => 0, fun _ => 0,
            fun _ _ => 0, fun _ _ => 0⟩ : TrigOps ℚ)
          (canvas_begin_path []) ⟨1, 2⟩ ⟨3, 4⟩ 5)).getD [] ≠ [] := by
  rw [canvas_arc_to_after_begin]
  simp

/-- Claim C2, amended: an arc_to issued on the canvas immediately after
begin_path, with no prior move_to, is not a no-op — get_current_sub_path
lazily creates a sub-path seeded with `move_to(pt1)`, so the resulting
current sub-path holds `pt1` followed by the computed arc points and is in
particular non-empty. -/
theorem arc_to_after_begin_path_seeds_sub_path (ops : TrigOps α)
    (els : List (PathElement α)) (pt1 pt2 : Point α) (radius : α) :
    path_current_sub_path
        (canvas_arc_to ops (canvas_begin_path els) pt1 pt2 radius) =
      some (pt1 :: get_arc_to_points ops pt1 pt1 pt2 radius) :=
  canvas_arc_to_after_begin ops els pt1 pt2 radius

/-- The arc point sequence always has exactly `segments + 1` points. -/
theorem get_arc_to_points_length (ops : TrigOps α) (p0 p1 p2 : Point α)
    (radius : α) :
    (get_arc_to_points ops p0 p1 p2 radius).length =
      (arc_segments ops p0 p1 p2 radius).toNat + 1 := by
  unfold get_arc_to_points
  rw [List.length_map, List.length_range]

/-- Claim C8, amended: the number of arc segments used by
get_arc_to_points equals `max(4, trunc(arcLength/2))` — truncation toward
zero, not rounding to nearest — where `arcLength = |Δangle|·radius`, and
the returned point sequence has exactly that many segments plus one
points. -/
theorem arc_segment_count_formula (ops : TrigOps α) (p0 p1 p2 : Point α)
    (radius : α) :
    (get_arc_to_points ops p0 p1 p2 radius).length =
      (max 4 (truncInt
        (|(arc_data ops p0 p1 p2 radius).deltaAngle| * radius / 2))).toNat
        + 1 := by
  rw [get_arc_to_points_length]; rfl

set_option maxHeartbeats 1000000 in
/-- On the `roundOps` instantiation — which agrees with the real math
functions at every touched value, up to the rational surrogates for π and
√2 — the arc solver's intermediate data at the corner
`(0,10) → (0,0) → (10,0)` with radius 6: center (6,6), start angle π,
swept angle π/2, exactly as a hand trace of the real execution gives. -/
theorem roundOps_arc_data :
    arc_data roundOps ⟨0, 10⟩ ⟨0, 0⟩ ⟨10, 0⟩ 6 =
      ⟨⟨6, 6⟩, 157 / 50, 157 / 100⟩ := by
  simp only [arc_data, roundOps]
  norm_num

/-- Counterexample to claim C8 as stated: at the right-angle corner
prev = (0,10), vertex = (0,0), next = (10,0) with radius 6, the swept
angle is π/2 and `arcLength/2 = 3π/2 ≈ 4.71` (here exactly 471/100 with
π played by 157/50), so the code's truncation gives
`max(4, trunc(4.71)) = 4` segments — 5 points — while the claimed
formula `max(4, round(4.71)) = 5` predicts 6 points. -/
theorem arc_segment_count_not_rounded :
    (get_arc_to_points roundOps ⟨0, 10⟩ ⟨0, 0⟩ ⟨10, 0⟩ 6).length ≠
      (arc_segments_spec roundOps ⟨0, 10⟩ ⟨0, 0⟩ ⟨10, 0⟩ 6).toNat + 1 := by
  rw [get_arc_to_points_length]
  rw [show arc_segments roundOps ⟨0, 10⟩ ⟨0, 0⟩ ⟨10, 0⟩ 6 = 4 by
    simp only [arc_segments, roundOps_arc_data]
    rw [show |(157 : ℚ) / 100| = 157 / 100 from abs_of_pos (by norm_num)]
    norm_num [truncInt]]
  rw [show arc_segments_spec roundOps ⟨0, 10⟩ ⟨0, 0⟩ ⟨10, 0⟩ 6 = 5 by
    simp only [arc_segments_spec, roundOps_arc_data]
    rw [show |(157 : ℚ) / 100| = 157 / 100 from abs_of_pos (by norm_num)]
    norm_num [round_eq]]
  decide

end ClaimTheoremsB

section ClaimTheoremsB2

variable {α : Type} [LinearOrderedField α]

/-- Claim C5: when the square root of the segment's squared length
behaves as a square root should (its square gives back the radicand, and
it is non-zero — which in real arithmetic holds exactly when the two
endpoints are distinct), get_thick_line_points returns exactly 4 points;
the two corner pairs across the segment, points 0-1 and points 3-2, are
each at squared distance `t·t` (i.e. at distance `t`), and the quad's two
long edges, points 1-2 and points 0-3, are parallel to `b - a` (their
cross product with `b - a` vanishes). -/
theorem thick_line_quad (ops : TrigOps α) (a b : Point α) (t : α)
    (hs : ops.sqrtFn ((b.x - a.x) * (b.x - a.x) + (b.y - a.y) * (b.y - a.y)) *
        ops.sqrtFn ((b.x - a.x) * (b.x - a.x) + (b.y - a.y) * (b.y - a.y)) =
        (b.x - a.x) * (b.x - a.x) + (b.y - a.y) * (b.y - a.y))
    (h0 : ops.sqrtFn
        ((b.x - a.x) * (b.x - a.x) + (b.y - a.y) * (b.y - a.y)) ≠ 0) :
    (get_thick_line_points ops a b t).length = 4 ∧
    dist_sq (pget (get_thick_line_points ops a b t) 0)
        (pget (get_thick_line_points ops a b t) 1) = t * t ∧
    dist_sq (pget (get_thick_line_points ops a b t) 3)
        (pget (get_thick_line_points ops a b t) 2) = t * t ∧
    ((pget (get_thick_line_points ops a b t) 2).x -
        (pget (get_thick_line_points ops a b t) 1).x) * (b.y - a.y) -
      ((pget (get_thick_line_points ops a b t) 2).y -
        (pget (get_thick_line_points ops a b t) 1).y) * (b.x - a.x) = 0 ∧
    ((pget (get_thick_line_points ops a b t) 3).x -
        (pget (get_thick_line_points ops a b t) 0).x) * (b.y - a.y) -
      ((pget (get_thick_line_points ops a b t) 3).y -
        (pget (get_thick_line_points ops a b t) 0).y) * (b.x - a.x) = 0 := by
  set d := ops.sqrtFn ((b.x - a.x) * (b.x - a.x) + (b.y - a.y) * (b.y - a.y))
    with hd
  simp only [get_thick_line_points, ← hd, pget, List.getD_cons_zero,
    List.getD_cons_succ, dist_sq, List.length_cons, List.length_nil]
  refine ⟨trivial, ?_, ?_, by ring, by ring⟩
  · have hs2 : d ^ 2 =
        (b.x - a.x) * (b.x - a.x) + (b.y - a.y) * (b.y - a.y) := by
      rw [pow_two]; exact hs
    field_simp
    linear_combination (-4 * t * t) * hs2
  · have hs2 : d ^ 2 =
        (b.x - a.x) * (b.x - a.x) + (b.y - a.y) * (b.y - a.y) := by
      rw [pow_two]; exact hs
    field_simp
    linear_combination (-4 * t * t) * hs2

/-- Witness for C5 on the segment (0,0)-(3,4) with thickness 2. -/
theorem thick_line_quad_witness :
    (sqrt25Ops.sqrtFn
        (((3 : ℚ) - 0) * ((3 : ℚ) - 0) + ((4 : ℚ) - 0) * ((4 : ℚ) - 0)) *
      sqrt25Ops.sqrtFn
        (((3 : ℚ) - 0) * ((3 : ℚ) - 0) + ((4 : ℚ) - 0) * ((4 : ℚ) - 0)) =
      ((3 : ℚ) - 0) * ((3 : ℚ) - 0) + ((4 : ℚ) - 0) * ((4 : ℚ) - 0)) ∧
    sqrt25Ops.sqrtFn
      (((3 : ℚ) - 0) * ((3 : ℚ) - 0) + ((4 : ℚ) - 0) * ((4 : ℚ) - 0)) ≠ 0 ∧
    dist_sq (pget (get_thick_line_points sqrt25Ops ⟨0, 0⟩ ⟨3, 4⟩ 2) 0)
      (pget (get_thick_line_points sqrt25Ops ⟨0, 0⟩ ⟨3, 4⟩ 2) 1) =
      (2 : ℚ) * 2 :=
  ⟨by norm_num [sqrt25Ops], by norm_num [sqrt25Ops],
    ((thick_line_quad sqrt25Ops ⟨0, 0⟩ ⟨3, 4⟩ 2 (by norm_num [sqrt25Ops])
      (by norm_num [sqrt25Ops])).2).1⟩

end ClaimTheoremsB2

section ClaimTheoremsB3

variable {α : Type} [LinearOrderedField α] [FloorRing α]

/-- Claim C7: under the identities the real math functions satisfy at the
corner prev = (0,10), vertex = (0,0), next = (10,0) with radius 5 — the
two direction lengths are 10, acos 0 = π/2, tan(π/4) = 1, the bisector
length is √2 =: b with sin(π/4) = 1/b, the two tangent-point angles seen
from the center (5,5) are atan2 0 (−5) = π and atan2 (−5) 0 = −π/2, and
cosine/sine take their standard values at π and 3π/2 — get_arc_to_points
returns a non-empty sequence whose first point is (0,5) and whose last
point is (5,0); each tangent point thus lies at distance
5 / tan(π/4) = 5 from the vertex along the respective directions. -/
theorem arc_round_corner_tangent_points (ops : TrigOps α) (b : α)
    (hlen1 : ops.hypot 0 10 = 10) (hlen2 : ops.hypot 10 0 = 10)
    (hacos : ops.acos 0 = ops.pi / 2)
    (htan : ops.tan (ops.pi / 2 / 2) = 1)
    (hbl : ops.hypot 1 1 = b) (hb0 : b ≠ 0)
    (hsin : ops.sin (ops.pi / 2 / 2) = 1 / b)
    (hat1 : ops.atan2 0 (-5) = ops.pi)
    (hat2 : ops.atan2 (-5) 0 = -(ops.pi / 2))
    (hpi : 0 < ops.pi)
    (hcos1 : ops.cos ops.pi = -1) (hsin1 : ops.sin ops.pi = 0)
    (hcos2 : ops.cos (ops.pi + ops.pi / 2) = 0)
    (hsin2 : ops.sin (ops.pi + ops.pi / 2) = -1) :
    get_arc_to_points ops ⟨0, 10⟩ ⟨0, 0⟩ ⟨10, 0⟩ 5 ≠ [] ∧
    (get_arc_to_points ops ⟨0, 10⟩ ⟨0, 0⟩ ⟨10, 0⟩ 5).head? = some ⟨0, 5⟩ ∧
    (get_arc_to_points ops ⟨0, 10⟩ ⟨0, 0⟩ ⟨10, 0⟩ 5).getLast? =
      some ⟨5, 0⟩ := by
  have had : arc_data ops ⟨0, 10⟩ ⟨0, 0⟩ ⟨10, 0⟩ 5 =
      ⟨⟨5, 5⟩, ops.pi, ops.pi / 2⟩ := by
    simp only [arc_data]
    norm_num
    rw [hlen1, hlen2]
    norm_num [hacos, htan, hbl]
    rw [hsin]
    have hc : b⁻¹ * 5 / (1 / b) = 5 := by field_simp
    rw [hc]
    norm_num [hat1, hat2]
    rw [if_pos (by linarith)]
    ring
  set s := arc_segments ops ⟨0, 10⟩ ⟨0, 0⟩ ⟨10, 0⟩ 5 with hs
  have hs4 : (4 : ℤ) ≤ s := by rw [hs]; exact le_max_left _ _
  have hc0 : ((s : ℤ) : α) ≠ 0 := by
    have : (4 : α) ≤ ((s : ℤ) : α) := by exact_mod_cast hs4
    linarith
  have hcast : ((s.toNat : ℕ) : α) = ((s : ℤ) : α) := by
    exact_mod_cast congrArg (fun z : ℤ => (z : α))
      (Int.toNat_of_nonneg (by linarith))
  unfold get_arc_to_points
  rw [had, ← hs]
  refine ⟨?_, ?_, ?_⟩
  · intro h
    have := congrArg List.length h
    rw [List.length_map, List.length_range] at this
    simp at this
  · rw [head?_map_range]
    norm_num [hcos1, hsin1]
  · rw [getLast?_map_range]
    rw [show (ops.pi / 2 * (s.toNat : α) / ((s : ℤ) : α)) = ops.pi / 2 by
      rw [hcast, mul_div_assoc, div_self hc0, mul_one]]
    simp only [hcos2, hsin2]
    norm_num

/-- Witness for C7 at the concrete corner instantiation of the math
functions. -/
theorem arc_round_corner_tangent_points_witness :
    cornerOps.hypot 0 10 = 10 ∧ cornerOps.hypot 10 0 = 10 ∧
    cornerOps.acos 0 = cornerOps.pi / 2 ∧
    cornerOps.tan (cornerOps.pi / 2 / 2) = 1 ∧
    cornerOps.hypot 1 1 = 7 ∧ (7 : ℚ) ≠ 0 ∧
    cornerOps.sin (cornerOps.pi / 2 / 2) = 1 / 7 ∧
    cornerOps.atan2 0 (-5) = cornerOps.pi ∧
    cornerOps.atan2 (-5) 0 = -(cornerOps.pi / 2) ∧
    0 < cornerOps.pi ∧
    cornerOps.cos cornerOps.pi = -1 ∧ cornerOps.sin cornerOps.pi = 0 ∧
    cornerOps.cos (cornerOps.pi + cornerOps.pi / 2) = 0 ∧
    cornerOps.sin (cornerOps.pi + cornerOps.pi / 2) = -1 ∧
    (get_arc_to_points cornerOps ⟨0, 10⟩ ⟨0, 0⟩ ⟨10, 0⟩ 5 ≠ [] ∧
      (get_arc_to_points cornerOps ⟨0, 10⟩ ⟨0, 0⟩ ⟨10, 0⟩ 5).head? =
        some ⟨0, 5⟩ ∧
      (get_arc_to_points cornerOps ⟨0, 10⟩ ⟨0, 0⟩ ⟨10, 0⟩ 5).getLast? =
        some ⟨5, 0⟩) :=
  ⟨by norm_num [cornerOps], by norm_num [cornerOps], by norm_num [cornerOps],
   by norm_num [cornerOps], by norm_num [cornerOps], by norm_num,
   by norm_num [cornerOps], by norm_num [cornerOps], by norm_num [cornerOps],
   by norm_num [cornerOps], by norm_num [cornerOps], by norm_num [cornerOps],
   by norm_num [cornerOps], by norm_num [cornerOps],
   arc_round_corner_tangent_points cornerOps 7
     (by norm_num [cornerOps]) (by norm_num [cornerOps])
     (by norm_num [cornerOps]) (by norm_num [cornerOps])
     (by norm_num [cornerOps]) (by norm_num)
     (by norm_num [cornerOps]) (by norm_num [cornerOps])
     (by norm_num [cornerOps]) (by norm_num [cornerOps])
     (by norm_num [cornerOps]) (by norm_num [cornerOps])
     (by norm_num [cornerOps]) (by norm_num [cornerOps])⟩

end ClaimTheoremsB3

section EllipseLemmas

variable {α : Type} [LinearOrderedField α]

/-- After a sampling loop run whose fuel strictly dominates the distance
to cover, the final sampling angle lies strictly beyond `alphaEnd`. -/
theorem ellipse_loop_final_gt (ops : TrigOps α) (ed : EllipseData α)
    (alphaEnd step : α) :
    ∀ (fuel : Nat) (alpha : α), alphaEnd < alpha + (fuel : α) * step →
      alphaEnd < (ellipse_loop ops ed alphaEnd step fuel alpha).2 := by
  intro fuel
  induction fuel with
  | zero => intro alpha h; simpa [ellipse_loop] using h
  | succ f ih =>
    intro alpha h
    rw [ellipse_loop]
    by_cases hle : alpha ≤ alphaEnd
    · rw [if_pos hle]
      exact ih (alpha + step) (by push_cast at h ⊢; linarith)
    · rw [if_neg hle]
      exact lt_of_not_le hle

/-- The first sample of a loop run that starts inside the angle range is
the point at the starting angle. -/
theorem ellipse_loop_head (ops : TrigOps α) (ed : EllipseData α)
    (alphaEnd step : α) (f : Nat) (alpha : α) (hle : alpha ≤ alphaEnd) :
    (ellipse_loop ops ed alphaEnd step (f + 1) alpha).1.head? =
      some ⟨ed.cx + ops.cos alpha * ed.rx, ed.cy + ops.sin alpha * ed.ry⟩ := by
  rw [ellipse_loop, if_pos hle]
  simp

/-- Claim C6: for a positive sampling step (which the real square root
yields whenever the two radii are not both zero), a positive π, 2π-periodic
cosine and sine, a full-circle angle range `a1 = a0 + 2π`, and enough fuel
for the terminating source loop, get_ellipse_points returns a non-empty
point sequence whose first and last points coincide: the final point
appended exactly at `alphaEnd` closes the ring. -/
theorem ellipse_full_circle_closed (ops : TrigOps α) (fuel : Nat)
    (p q : Point α) (a0 a1 : α)
    (hrange : a1 = a0 + 2 * ops.pi)
    (hpi : 0 < ops.pi)
    (hstep : 0 < ellipse_step ops p q)
    (hcos : ∀ x, ops.cos (x + 2 * ops.pi) = ops.cos x)
    (hsin : ∀ x, ops.sin (x + 2 * ops.pi) = ops.sin x)
    (hfuel : a1 < a0 + (fuel : α) * ellipse_step ops p q) :
    get_ellipse_points ops fuel p q a0 a1 ≠ [] ∧
    (get_ellipse_points ops fuel p q a0 a1).head? =
      (get_ellipse_points ops fuel p q a0 a1).getLast? := by
  have ha0 : a0 ≤ a1 := by rw [hrange]; linarith
  obtain ⟨f, rfl⟩ : ∃ f, fuel = f + 1 := by
    cases fuel with
    | zero => exfalso; push_cast at hfuel; linarith
    | succ f => exact ⟨f, rfl⟩
  have hgt := ellipse_loop_final_gt ops (get_ellipse_data p q) a1
    (ellipse_step ops p q) (f + 1) a0 hfuel
  have hhead := ellipse_loop_head ops (get_ellipse_data p q) a1
    (ellipse_step ops p q) f a0 ha0
  unfold get_ellipse_points
  rw [if_pos (by linarith)]
  set r := ellipse_loop ops (get_ellipse_data p q) a1
    (ellipse_step ops p q) (f + 1) a0 with hr
  have hne : r.1 ≠ [] := by
    intro h
    rw [h] at hhead
    simp at hhead
  obtain ⟨y, ys, hcons⟩ := List.exists_cons_of_ne_nil hne
  refine ⟨by simp, ?_⟩
  rw [hcons]
  rw [List.getLast?_concat]
  have hy : y =
      ⟨(get_ellipse_data p q).cx + ops.cos a0 * (get_ellipse_data p q).rx,
        (get_ellipse_data p q).cy + ops.sin a0 * (get_ellipse_data p q).ry⟩ := by
    rw [hcons] at hhead
    simpa using hhead
  simp only [List.cons_append, List.head?_cons, hy]
  rw [hrange, hcos a0, hsin a0]

/-- Witness for C6: a full-circle run over ℚ with step 1 and fuel 6 on the
angle range `[0, 4]` (with π played by 2). -/
theorem ellipse_full_circle_closed_witness :
    ((4 : ℚ) = 0 + 2 * circleOps.pi) ∧ (0 < circleOps.pi) ∧
    (0 < ellipse_step circleOps ⟨0, 0⟩ ⟨2, 2⟩) ∧
    ((4 : ℚ) < 0 + ((6 : Nat) : ℚ) * ellipse_step circleOps ⟨0, 0⟩ ⟨2, 2⟩) ∧
    (get_ellipse_points circleOps 6 ⟨0, 0⟩ ⟨2, 2⟩ 0 4 ≠ [] ∧
      (get_ellipse_points circleOps 6 ⟨0, 0⟩ ⟨2, 2⟩ 0 4).head? =
        (get_ellipse_points circleOps 6 ⟨0, 0⟩ ⟨2, 2⟩ 0 4).getLast?) :=
  ⟨by norm_num [circleOps],
   by norm_num [circleOps],
   by norm_num [ellipse_step, get_ellipse_data, circleOps],
   by norm_num [ellipse_step, get_ellipse_data, circleOps],
   ellipse_full_circle_closed circleOps 6 ⟨0, 0⟩ ⟨2, 2⟩ 0 4
     (by norm_num [circleOps]) (by norm_num [circleOps])
     (by norm_num [ellipse_step, get_ellipse_data, circleOps])
     (fun x => rfl) (fun x => rfl)
     (by norm_num [ellipse_step, get_ellipse_data, circleOps])⟩

end EllipseLemmas

section ConvexTriangulationLemmas

variable {α : Type} [LinearOrderedCommRing α]

/-- Indexing into `List.range' s m` with a default. -/
theorem getD_range' (s m i : Nat) (h : i < m) :
    (List.range' s m).getD i 0 = s + i := by
  induction m generalizing s i with
  | zero => omega
  | succ m ih =>
    rw [List.range'_succ]
    cases i with
    | zero => simp
    | succ i =>
      rw [show (s :: List.range' (s+1) m).getD (i+1) 0 =
        (List.range' (s+1) m).getD i 0 from rfl, ih (s+1) i (by omega)]
      omega

/-- The cross product is invariant under cyclic rotation of its
arguments. -/
theorem cross_rot (a b c : Point α) : cross a b c = cross b c a := by
  simp only [cross]; ring

/-- The cross product is negated when its first two arguments swap. -/
theorem cross_swap (a b c : Point α) : cross a b c = -cross b a c := by
  simp only [cross]; ring

/-- On a polygon whose vertices are in strictly convex position in the
engine's clockwise orientation (every position-ordered vertex triple has
negative cross product), the first scan position of any working window
`[k, k+m)` is a valid ear: its triple is convex and, for every other
remaining vertex, the cross products against edges (last,first) and
(second,last) have opposite signs, so the vertex lies strictly outside
the candidate triangle. -/
theorem ear_ok_head (p : List (Point α))
    (hCP : ∀ k, k < p.length → ∀ j, j < k → ∀ i, i < j →
      cross (pget p i) (pget p j) (pget p k) < 0)
    (k m : Nat) (hm : 4 ≤ m) (hkm : k + m = p.length) :
    ear_ok p (List.range' k m) 0 = true := by
  have h0 : (0 + m - 1) % m = m - 1 := by
    rw [Nat.zero_add, Nat.mod_eq_of_lt (by omega)]
  have h1 : (0 + 1) % m = 1 := by rw [Nat.mod_eq_of_lt (by omega)]
  simp only [ear_ok, List.length_range', h0, h1,
    getD_range' k m (m-1) (by omega), getD_range' k m 0 (by omega),
    getD_range' k m 1 (by omega), Nat.add_zero]
  rw [Bool.and_eq_true]
  constructor
  · -- convexity of the head triple
    rw [is_convex, decide_eq_true_eq, cross_rot]
    exact hCP (k + (m-1)) (by omega) (k+1) (by omega) k (by omega)
  · -- no other vertex lies in the candidate ear
    rw [Bool.not_eq_true', List.any_eq_false]
    intro j hjmem
    rw [List.mem_range'_1] at hjmem
    intro hcontra
    rw [Bool.and_eq_true] at hcontra
    obtain ⟨hnotskip, hpit⟩ := hcontra
    rw [Bool.not_eq_true'] at hnotskip
    simp only [Bool.or_eq_false_iff, beq_eq_false_iff_ne, ne_eq] at hnotskip
    obtain ⟨⟨hs1, hs2⟩, hs3⟩ := hnotskip
    have hjlo : k + 2 ≤ j := by omega
    have hjhi : j < k + (m - 1) := by omega
    have hd1 : cross (pget p (k + (m - 1))) (pget p k) (pget p j) < 0 := by
      rw [cross_rot]
      exact hCP (k + (m - 1)) (by omega) j (by omega) k (by omega)
    have hd3 : 0 < cross (pget p (k + 1)) (pget p (k + (m - 1))) (pget p j) := by
      have h := hCP (k + (m - 1)) (by omega) j (by omega) (k + 1) (by omega)
      rw [cross_rot, cross_rot, cross_swap]
      linarith
    simp only [point_in_triangle] at hpit
    rw [decide_eq_true hd1, decide_eq_true hd3] at hpit
    simp at hpit


/-- On a strictly convex clockwise polygon the ear scan succeeds
immediately at position 0. -/
theorem find_ear_head (p : List (Point α))
    (hCP : ∀ k, k < p.length → ∀ j, j < k → ∀ i, i < j →
      cross (pget p i) (pget p j) (pget p k) < 0)
    (k m : Nat) (hm : 4 ≤ m) (hkm : k + m = p.length) :
    find_ear p (List.range' k m) = some 0 := by
  rw [find_ear, List.length_range']
  obtain ⟨mm, rfl⟩ : ∃ mm, m = mm + 1 := ⟨m - 1, by omega⟩
  rw [List.range_succ_eq_map]
  exact List.find?_cons_of_pos _ (ear_ok_head p hCP k (mm + 1) hm hkm)

/-- The triangle clipped at scan position 0 of the window `[k, k+m)`. -/
theorem ear_triangle_head (p : List (Point α)) (k m : Nat) (hm : 4 ≤ m) :
    ear_triangle p (List.range' k m) 0 =
      ⟨pget p (k + (m - 1)), pget p k, pget p (k + 1)⟩ := by
  have h0 : (0 + m - 1) % m = m - 1 := by
    rw [Nat.zero_add, Nat.mod_eq_of_lt (by omega)]
  have h1 : (0 + 1) % m = 1 := by rw [Nat.mod_eq_of_lt (by omega)]
  simp only [ear_triangle, List.length_range', h0, h1,
    getD_range' k m (m-1) (by omega), getD_range' k m 0 (by omega),
    getD_range' k m 1 (by omega), Nat.add_zero]

/-- Removing the first index of a window shrinks it from the left. -/
theorem eraseIdx_zero_range' (k m : Nat) (hm : 1 ≤ m) :
    (List.range' k m).eraseIdx 0 = List.range' (k + 1) (m - 1) := by
  obtain ⟨mm, rfl⟩ : ∃ mm, m = mm + 1 := ⟨m - 1, by omega⟩
  rw [List.range'_succ]
  rfl

/-- Unfolding equation of the expected fan at windows of length at least
four. -/
theorem fanFrom_cons (p : List (Point α)) (k mm : Nat) :
    fanFrom p k (mm + 4) =
      ⟨pget p (k + mm + 3), pget p k, pget p (k + 1)⟩ ::
        fanFrom p (k + 1) (mm + 3) := rfl

/-- On a strictly convex clockwise polygon the clipping loop, run on the
window `[k, k+m)` with enough fuel, emits exactly the expected fan after
the accumulated triangles. -/
theorem clip_loop_convex (p : List (Point α))
    (hCP : ∀ k, k < p.length → ∀ j, j < k → ∀ i, i < j →
      cross (pget p i) (pget p j) (pget p k) < 0) :
    ∀ (mm fuel k : Nat) (acc : List (Triangle α)),
      k + (mm + 3) = p.length → mm ≤ fuel →
      clip_loop p fuel (List.range' k (mm + 3)) acc = acc ++ fanFrom p k (mm + 3) := by
  intro mm
  induction mm with
  | zero =>
    intro fuel k acc hk _
    have hfin : final_triangle p (List.range' k 3) =
        [⟨pget p k, pget p (k + 1), pget p (k + 2)⟩] := by
      simp only [final_triangle, List.length_range',
        getD_range' k 3 0 (by omega), getD_range' k 3 1 (by omega),
        getD_range' k 3 2 (by omega), Nat.add_zero]
      simp
    cases fuel with
    | zero => rw [clip_loop, hfin]; rfl
    | succ f =>
      rw [clip_loop, if_neg (by rw [List.length_range']; omega), hfin]
      rfl
  | succ mm ih =>
    intro fuel k acc hk hfuel
    obtain ⟨f, rfl⟩ : ∃ f, fuel = f + 1 := ⟨fuel - 1, by omega⟩
    rw [show mm + 1 + 3 = mm + 4 from rfl] at hk ⊢
    rw [clip_loop, if_pos (by rw [List.length_range']; omega)]
    rw [find_ear_head p hCP k (mm + 4) (by omega) (by omega)]
    show clip_loop p f ((List.range' k (mm + 4)).eraseIdx 0)
      (acc ++ [ear_triangle p (List.range' k (mm + 4)) 0]) =
        acc ++ fanFrom p k (mm + 4)
    rw [eraseIdx_zero_range' k (mm + 4) (by omega)]
    rw [ear_triangle_head p k (mm + 4) (by omega)]
    rw [show mm + 4 - 1 = mm + 3 from rfl]
    rw [ih f (k + 1) _ (by omega) (by omega)]
    rw [fanFrom_cons, show k + (mm + 3) = k + mm + 3 by omega]
    simp

/-- On a strictly convex clockwise polygon, triangulate_polygon returns
exactly the fan obtained by repeatedly clipping the scan head. -/
theorem triangulate_convex (p : List (Point α)) (hn : 3 ≤ p.length)
    (hCP : ∀ k, k < p.length → ∀ j, j < k → ∀ i, i < j →
      cross (pget p i) (pget p j) (pget p k) < 0) :
    triangulate_polygon p = fanFrom p 0 p.length := by
  obtain ⟨mm, hmm⟩ : ∃ mm, p.length = mm + 3 := ⟨p.length - 3, by omega⟩
  rw [triangulate_polygon, if_neg (by omega), List.range_eq_range' p.length, hmm]
  rw [clip_loop_convex p hCP mm (mm + 3) 0 [] (by omega) (by omega)]
  rw [List.nil_append]


/-- The expected fan on a window of length `mm + 3` has `mm + 1`
triangles. -/
theorem fanFrom_length (p : List (Point α)) :
    ∀ (mm k : Nat), (fanFrom p k (mm + 3)).length = mm + 1 := by
  intro mm
  induction mm with
  | zero => intro k; simp [fanFrom]
  | succ mm ih =>
    intro k
    rw [show mm + 1 + 3 = mm + 4 from rfl, fanFrom_cons, List.length_cons, ih]

/-- Sums over a range split pointwise additions. -/
theorem sum_map_range_add (f g : Nat → α) :
    ∀ m : Nat, ((List.range m).map (fun j => f j + g j)).sum =
      ((List.range m).map f).sum + ((List.range m).map g).sum := by
  intro m
  induction m with
  | zero => simp
  | succ m ih =>
    rw [List.range_succ]
    simp only [List.map_append, List.sum_append, List.map_cons, List.map_nil,
      List.sum_cons, List.sum_nil, ih]
    ring

/-- A telescoping sum over a range collapses to its boundary values. -/
theorem sum_map_range_telescope (g : Nat → α) :
    ∀ m : Nat, ((List.range m).map (fun j => g (j + 1) - g j)).sum =
      g m - g 0 := by
  intro m
  induction m with
  | zero => simp
  | succ m ih =>
    rw [List.range_succ]
    simp only [List.map_append, List.sum_append, List.map_cons, List.map_nil,
      List.sum_cons, List.sum_nil, ih]
    ring

/-- The summed cross products of the fan equal the fan sum from the apex
vertex (the polygon's last vertex) over consecutive vertex pairs. -/
theorem fanFrom_cross_sum (p : List (Point α)) :
    ∀ (mm k : Nat), k + (mm + 3) = p.length →
      ((fanFrom p k (mm + 3)).map (fun t => cross t.a t.b t.c)).sum =
      ((List.range (mm + 1)).map (fun j =>
        cross (pget p (p.length - 1)) (pget p (k + j)) (pget p (k + j + 1)))).sum := by
  intro mm
  induction mm with
  | zero =>
    intro k hk
    simp only [fanFrom, List.map_cons, List.map_nil, List.sum_cons,
      List.sum_nil]
    rw [show (0:Nat) + 1 = 1 from rfl, show List.range 1 = [0] from rfl]
    simp only [List.map_cons, List.map_nil, List.sum_cons, List.sum_nil,
      Nat.add_zero]
    rw [show p.length - 1 = k + 2 by omega]
    rw [cross_rot (pget p (k + 2)) (pget p k) (pget p (k + 1))]
  | succ mm ih =>
    intro k hk
    rw [show mm + 1 + 3 = mm + 4 from rfl] at *
    rw [fanFrom_cons]
    simp only [List.map_cons, List.sum_cons]
    rw [ih (k + 1) (by omega)]
    conv_rhs => rw [show mm + 1 + 1 = mm + 2 from rfl, List.range_succ_eq_map]
    rw [List.map_cons, List.sum_cons, List.map_map]
    rw [show k + mm + 3 = p.length - 1 by omega]
    simp only [Nat.add_zero]
    congr 1
    congr 1
    apply List.map_congr_left
    intro j _
    simp only [Function.comp_apply, Nat.succ_eq_add_one]
    rw [show k + 1 + j = k + (j + 1) by omega]

/-- Every triangle of the fan of a strictly convex clockwise polygon is
clockwise: its cross product is negative. -/
theorem fanFrom_all_neg (p : List (Point α))
    (hCP : ∀ k, k < p.length → ∀ j, j < k → ∀ i, i < j →
      cross (pget p i) (pget p j) (pget p k) < 0) :
    ∀ (mm k : Nat), k + (mm + 3) = p.length →
      ∀ t ∈ fanFrom p k (mm + 3), cross t.a t.b t.c < 0 := by
  intro mm
  induction mm with
  | zero =>
    intro k hk t ht
    simp only [fanFrom, List.mem_singleton] at ht
    subst ht
    exact hCP (k + 2) (by omega) (k + 1) (by omega) k (by omega)
  | succ mm ih =>
    intro k hk t ht
    rw [show mm + 1 + 3 = mm + 4 from rfl] at *
    rw [fanFrom_cons, List.mem_cons] at ht
    rcases ht with rfl | ht
    · show cross (pget p (k + mm + 3)) (pget p k) (pget p (k + 1)) < 0
      rw [cross_rot]
      exact hCP (k + mm + 3) (by omega) (k + 1) (by omega) k (by omega)
    · exact ih (k + 1) (by omega) t ht

/-- The apex fan sum of cross products equals the Shoelace sum: each
cross product against the apex splits into an edge term plus a
telescoping part, and the boundary terms are exactly the two closing
edges of the cyclic Shoelace sum. -/
theorem fan_sum_shoelace (p : List (Point α)) (hn : 3 ≤ p.length) :
    ((List.range (p.length - 2)).map (fun j =>
      cross (pget p (p.length - 1)) (pget p j) (pget p (j + 1)))).sum =
      shoelace2 p := by
  set n := p.length with hnn
  set q := pget p (n - 1) with hq
  set E : Nat → α := fun t => (pget p t).x * (pget p (t + 1)).y -
    (pget p (t + 1)).x * (pget p t).y with hE
  set G : Nat → α := fun t => q.y * (pget p t).x - q.x * (pget p t).y with hG
  have hexp : (fun j => cross q (pget p j) (pget p (j + 1))) =
      fun j => E j + (G (j + 1) - G j) := by
    funext j
    simp only [hE, hG, cross]
    ring
  rw [hexp, sum_map_range_add E (fun j => G (j + 1) - G j),
    sum_map_range_telescope G]
  rw [shoelace2, ← hnn]
  rw [show List.range n = List.range (n - 1) ++ [n - 1] by
    rw [← List.range_succ]; congr 1; omega]
  rw [List.map_append, List.sum_append]
  rw [List.map_congr_left (l := List.range (n - 1))
    (g := fun i => (pget p i).x * (pget p (i + 1)).y -
      (pget p (i + 1)).x * (pget p i).y)
    (fun i hi => by
      rw [List.mem_range] at hi
      rw [Nat.mod_eq_of_lt (by omega)])]
  rw [show (fun i => (pget p i).x * (pget p (i + 1)).y -
    (pget p (i + 1)).x * (pget p i).y) = E from hE.symm]
  rw [show List.range (n - 1) = List.range (n - 2) ++ [n - 2] by
    rw [← List.range_succ]; congr 1; omega]
  rw [List.map_append, List.sum_append]
  simp only [List.map_cons, List.map_nil, List.sum_cons, List.sum_nil]
  rw [show n - 1 + 1 = n by omega, Nat.mod_self]
  simp only [hE, hG, hq]
  rw [show n - 2 + 1 = n - 1 by omega]
  ring


/-- A non-empty sum of negative terms is negative. -/
theorem sum_neg_of_all_neg (l : List α) (hne : l ≠ [])
    (hneg : ∀ x ∈ l, x < 0) : l.sum < 0 := by
  induction l with
  | nil => exact absurd rfl hne
  | cons x xs ih =>
    rw [List.sum_cons]
    rcases List.eq_nil_or_concat xs with h | _
    · subst h
      simpa using hneg x (by simp)
    · have hx := hneg x (by simp)
      have hxs : xs.sum < 0 := by
        apply ih
        · rintro rfl
          simp_all
        · intro y hy
          exact hneg y (List.mem_cons_of_mem _ hy)
      linarith

end ConvexTriangulationLemmas

section ClaimTheoremsC

variable {α : Type} [LinearOrderedField α]

/-- Half absolute values of all-negative terms sum to minus half the
sum. -/
theorem sum_map_absdiv2_of_neg (l : List α) (hneg : ∀ x ∈ l, x < 0) :
    (l.map (fun x => |x| / 2)).sum = -l.sum / 2 := by
  induction l with
  | nil => simp
  | cons x xs ih =>
    rw [List.map_cons, List.sum_cons, List.sum_cons]
    rw [abs_of_neg (hneg x (by simp))]
    rw [ih (fun y hy => hneg y (List.mem_cons_of_mem _ hy))]
    ring

/-- Claim C3: on every polygon of n >= 3 vertices in strictly convex
position with the engine's clockwise winding (every position-ordered
vertex triple has negative cross product — regular polygons wound this
way are the spec's instance), triangulate_polygon returns exactly n - 2
triangles, and the sum of their areas equals the polygon's analytic area
given by the Shoelace formula, exactly (tolerance is not needed in exact
arithmetic). -/
theorem triangulate_convex_count_area (p : List (Point α))
    (hn : 3 ≤ p.length)
    (hCP : ∀ k, k < p.length → ∀ j, j < k → ∀ i, i < j →
      cross (pget p i) (pget p j) (pget p k) < 0) :
    (triangulate_polygon p).length = p.length - 2 ∧
    ((triangulate_polygon p).map triangle_area).sum = polygon_area p := by
  obtain ⟨mm, hmm⟩ : ∃ mm, p.length = mm + 3 := ⟨p.length - 3, by omega⟩
  have htri := triangulate_convex p hn hCP
  have hneg : ∀ t ∈ fanFrom p 0 p.length, cross t.a t.b t.c < 0 := by
    rw [hmm]
    exact fanFrom_all_neg p hCP mm 0 (by omega)
  have hsum : ((fanFrom p 0 p.length).map (fun t => cross t.a t.b t.c)).sum =
      shoelace2 p := by
    rw [hmm, fanFrom_cross_sum p mm 0 (by omega)]
    rw [show (fun j => cross (pget p (p.length - 1)) (pget p (0 + j))
        (pget p (0 + j + 1))) = fun j => cross (pget p (p.length - 1))
        (pget p j) (pget p (j + 1)) from funext fun j => by
      rw [Nat.zero_add]]
    rw [show mm + 1 = p.length - 2 by omega]
    exact fan_sum_shoelace p hn
  constructor
  · rw [htri, hmm, fanFrom_length]
    omega
  · rw [htri]
    have hmap : (fanFrom p 0 p.length).map triangle_area =
        ((fanFrom p 0 p.length).map (fun t => cross t.a t.b t.c)).map
          (fun x => |x| / 2) := by
      rw [List.map_map]
      rfl
    rw [hmap]
    rw [sum_map_absdiv2_of_neg _ (by
      intro x hx
      rw [List.mem_map] at hx
      obtain ⟨t, ht, rfl⟩ := hx
      exact hneg t ht)]
    rw [hsum]
    have hfne : fanFrom p 0 p.length ≠ [] := by
      intro h
      have := congrArg List.length h
      rw [hmm, fanFrom_length] at this
      simp at this
    have hsl : shoelace2 p < 0 := by
      rw [← hsum]
      apply sum_neg_of_all_neg
      · simp [hfne]
      · intro x hx
        rw [List.mem_map] at hx
        obtain ⟨t, ht, rfl⟩ := hx
        exact hneg t ht
    rw [polygon_area, abs_of_neg hsl]




/-- Witness for C3 at the clockwise unit square over ℚ. -/
theorem triangulate_convex_count_area_witness :
    3 ≤ ([(⟨0,0⟩ : Point ℚ), ⟨0,1⟩, ⟨1,1⟩, ⟨1,0⟩] : List (Point ℚ)).length ∧
    (∀ k, k < ([(⟨0,0⟩ : Point ℚ), ⟨0,1⟩, ⟨1,1⟩, ⟨1,0⟩] : List (Point ℚ)).length →
      ∀ j, j < k → ∀ i, i < j →
      cross (pget [(⟨0,0⟩ : Point ℚ), ⟨0,1⟩, ⟨1,1⟩, ⟨1,0⟩] i)
        (pget [(⟨0,0⟩ : Point ℚ), ⟨0,1⟩, ⟨1,1⟩, ⟨1,0⟩] j)
        (pget [(⟨0,0⟩ : Point ℚ), ⟨0,1⟩, ⟨1,1⟩, ⟨1,0⟩] k) < 0) ∧
    ((triangulate_polygon [(⟨0,0⟩ : Point ℚ), ⟨0,1⟩, ⟨1,1⟩, ⟨1,0⟩]).length =
      ([(⟨0,0⟩ : Point ℚ), ⟨0,1⟩, ⟨1,1⟩, ⟨1,0⟩] : List (Point ℚ)).length - 2 ∧
    ((triangulate_polygon [(⟨0,0⟩ : Point ℚ), ⟨0,1⟩, ⟨1,1⟩, ⟨1,0⟩]).map
      triangle_area).sum =
      polygon_area [(⟨0,0⟩ : Point ℚ), ⟨0,1⟩, ⟨1,1⟩, ⟨1,0⟩]) :=
  ⟨by norm_num,
   by
    intro k hk j hj i hi
    simp only [List.length_cons, List.length_nil] at hk
    interval_cases k <;> interval_cases j <;> interval_cases i <;>
      norm_num [cross, pget, List.getD_cons_zero, List.getD_cons_succ],
   triangulate_convex_count_area [(⟨0,0⟩ : Point ℚ), ⟨0,1⟩, ⟨1,1⟩, ⟨1,0⟩]
     (by norm_num)
     (by
      intro k hk j hj i hi
      simp only [List.length_cons, List.length_nil] at hk
      interval_cases k <;> interval_cases j <;> interval_cases i <;>
        norm_num [cross, pget, List.getD_cons_zero, List.getD_cons_succ])⟩

end ClaimTheoremsC

end Io2d
